import Mathlib

/-!
Verification development for the `High-Stakes-Wealth` backtesting engine
(`src/backtest.py`).  The portfolio simulator `backtest_75_25`, its rebalance
schedule, and the metric computations of `_compute_metrics` are shallowly
embedded below; machine floats are idealised as exact rationals, and the
float square root used by the volatility metrics as the real square root.
-/

namespace HighStakes

/-- A calendar day, `year/month/day`, with no intraday component (the
simulator only compares dates for equality, so no order structure is
needed). -/
structure Date where
  year : ℕ
  month : ℕ
  day : ℕ
deriving DecidableEq

instance : Inhabited Date := ⟨⟨0, 0, 0⟩⟩

/-- Gregorian leap-year test. -/
def isLeap (y : ℕ) : Bool :=
  (y % 4 == 0 && y % 100 != 0) || (y % 400 == 0)

/-- Number of days in a Gregorian month. -/
def monthLength (y m : ℕ) : ℕ :=
  if m = 2 then (if isLeap y then 29 else 28)
  else if m = 4 ∨ m = 6 ∨ m = 9 ∨ m = 11 then 30
  else 31

/-- The last calendar day of the month containing `d`.  This is the label
pandas attaches to a monthly resampling bin: `prices.resample("M")` labels
each bin with the calendar month-end, whether or not that calendar day is a
trading day of the data. -/
def monthEnd (d : Date) : Date :=
  ⟨d.year, d.month, monthLength d.year d.month⟩

/-- One row of the aligned price table: a date on which both assets have a
price (`backtest_75_25` lines 178-180). -/
structure Row where
  date : Date
  stock : ℚ
  crypto : ℚ
deriving DecidableEq

instance : Inhabited Row := ⟨⟨default, 0, 0⟩⟩

/-- The configuration options of `backtest_75_25` that the simulation core
consumes (price retrieval and the date range are external collaborators). -/
structure SimConfig where
  stock_weight : ℚ
  crypto_weight : ℚ
  initial_capital : ℚ
  fee_bps : ℚ
deriving DecidableEq

/-- Unit holdings of the two assets, the loop state of `backtest_75_25`. -/
structure Units where
  stock : ℚ
  crypto : ℚ
deriving DecidableEq

/-- One emitted snapshot of portfolio state: the record dictionary built at
`backtest_75_25` lines 245-259, one per aligned day. -/
structure DayRecord where
  date : Date
  price_stock : ℚ
  price_crypto : ℚ
  units_stock : ℚ
  units_crypto : ℚ
  value_stock : ℚ
  value_crypto : ℚ
  portfolio_value : ℚ
  is_rebalance : Bool
  weight_stock : ℚ
  weight_crypto : ℚ
deriving DecidableEq

instance : Inhabited DayRecord :=
  ⟨⟨default, 0, 0, 0, 0, 0, 0, 0, false, 0, 0⟩⟩

/-- `np.isclose(x, 1.0)` with numpy's default tolerances
(`|a - b| <= atol + rtol * |b|`, `atol = 1e-8`, `rtol = 1e-5`), used by the
weight-sum check at `backtest_75_25` line 168. -/
def npIsCloseOne (x : ℚ) : Prop :=
  |x - 1| ≤ 1 / 100000000 + (1 / 100000) * 1

instance (x : ℚ) : Decidable (npIsCloseOne x) := by
  unfold npIsCloseOne; infer_instance

/-- The derived rebalance schedule, `prices.resample("M").last().index`
(line 186) for the default monthly frequency: the calendar month-end labels
of the months spanned by the table.  (pandas also emits labels for empty
months strictly between two data months; such labels are never equal to a
date of the table, so they cannot affect the membership test at line 206 and
are omitted here.) -/
def rebalance_dates (table : List Row) : List Date :=
  table.map (fun r => monthEnd r.date)

/-- Mark-to-market value of holdings `u` at the prices of `row`
(lines 200-203): the portfolio value before any trade of the day. -/
def preTradeValue (u : Units) (row : Row) : ℚ :=
  u.stock * row.stock + u.crypto * row.crypto

/-- The body of the daily loop of `backtest_75_25` (lines 196-259) for one
row: values the holdings, rebalances when the date is scheduled or the day
is the first, and emits the day's record.  Raising `RuntimeError` when fees
exceed the investable base (lines 229-232) is modelled by `Except.error`. -/
def stepDay (cfg : SimConfig) (sched : List Date) (is_first : Bool)
    (u : Units) (row : Row) : Except Unit (Units × DayRecord) :=
  let price_stock := row.stock
  let price_crypto := row.crypto
  let value_stock := u.stock * price_stock
  let value_crypto := u.crypto * price_crypto
  let current_portfolio_value := value_stock + value_crypto
  if row.date ∈ sched ∨ is_first = true then
    let investable_value_before_fees :=
      if is_first then cfg.initial_capital else current_portfolio_value
    let desired_value_stock := investable_value_before_fees * cfg.stock_weight
    let desired_value_crypto := investable_value_before_fees * cfg.crypto_weight
    let desired_units_stock := desired_value_stock / price_stock
    let desired_units_crypto := desired_value_crypto / price_crypto
    let trade_units_stock := desired_units_stock - u.stock
    let trade_units_crypto := desired_units_crypto - u.crypto
    let traded_notional :=
      |trade_units_stock| * price_stock + |trade_units_crypto| * price_crypto
    let transaction_cost := traded_notional * (cfg.fee_bps / 10000)
    let investable_value_after_fees :=
      investable_value_before_fees - transaction_cost
    if investable_value_after_fees < 0 then
      .error ()
    else
      let units_stock := investable_value_after_fees * cfg.stock_weight / price_stock
      let units_crypto := investable_value_after_fees * cfg.crypto_weight / price_crypto
      let vs := units_stock * price_stock
      let vc := units_crypto * price_crypto
      let pv := vs + vc
      .ok (⟨units_stock, units_crypto⟩,
        { date := row.date
          price_stock := price_stock
          price_crypto := price_crypto
          units_stock := units_stock
          units_crypto := units_crypto
          value_stock := vs
          value_crypto := vc
          portfolio_value := pv
          is_rebalance := true
          weight_stock := if 0 < pv then vs / pv else 0
          weight_crypto := if 0 < pv then vc / pv else 0 })
  else
    .ok (u,
      { date := row.date
        price_stock := price_stock
        price_crypto := price_crypto
        units_stock := u.stock
        units_crypto := u.crypto
        value_stock := value_stock
        value_crypto := value_crypto
        portfolio_value := current_portfolio_value
        is_rebalance := false
        weight_stock :=
          if 0 < current_portfolio_value then value_stock / current_portfolio_value else 0
        weight_crypto :=
          if 0 < current_portfolio_value then value_crypto / current_portfolio_value else 0 })

/-- The daily walk of `backtest_75_25`: folds `stepDay` over the aligned
rows, collecting the emitted records; `is_first` is true exactly for the
first iteration (`idx == 0`). -/
def runFrom (cfg : SimConfig) (sched : List Date) (is_first : Bool)
    (u : Units) : List Row → Except Unit (List DayRecord)
  | [] => .ok []
  | row :: rows =>
    match stepDay cfg sched is_first u row with
    | .error e => .error e
    | .ok (u1, rec) =>
      match runFrom cfg sched false u1 rows with
      | .error e => .error e
      | .ok rest => .ok (rec :: rest)

/-- The distinct failure conditions of `backtest_75_25`: the weight-sum
`ValueError` (line 169), the insufficient-history `RuntimeError` (line 183),
and the negative-fee-adjusted-base `RuntimeError` (line 230). -/
inductive BtError where
  | configError : BtError
  | dataError : BtError
  | simError : BtError
deriving DecidableEq

/-- The initial holdings of the walk: no units of either asset
(lines 190-191). -/
def unitsInit : Units := ⟨0, 0⟩

/-- `backtest_75_25` with price retrieval and alignment factored out: takes
the aligned table directly, checks the weight sum, checks that at least two
aligned rows exist, derives the monthly rebalance schedule from the table,
and walks the table. -/
def backtest_75_25 (cfg : SimConfig) (table : List Row) :
    Except BtError (List DayRecord) :=
  if npIsCloseOne (cfg.stock_weight + cfg.crypto_weight) then
    if table.length < 2 then .error .dataError
    else
      match runFrom cfg (rebalance_dates table) true unitsInit table with
      | .error _ => .error .simError
      | .ok recs => .ok recs
  else .error .configError

/-- The record list of a successful run (`[]` for a failed one). -/
def recsOf (e : Except BtError (List DayRecord)) : List DayRecord :=
  match e with
  | .ok recs => recs
  | .error _ => []

/-- Traded notional of day `i`, reconstructed from the emitted records
(lines 211-224 of `backtest_75_25`): the units entering day `i` are the
closing units of day `i - 1` (none on the first day), the investable base is
`initial_capital` on the first day and otherwise the mark-to-market value of
those units, and the notional is the two-sided absolute unit delta valued at
the day's prices. -/
def tradedAt (cfg : SimConfig) (recs : List DayRecord) (i : ℕ) : ℚ :=
  let r := recs.getD i default
  let us : ℚ := if i = 0 then 0 else (recs.getD (i - 1) default).units_stock
  let uc : ℚ := if i = 0 then 0 else (recs.getD (i - 1) default).units_crypto
  let base : ℚ :=
    if i = 0 then cfg.initial_capital
    else us * r.price_stock + uc * r.price_crypto
  |base * cfg.stock_weight / r.price_stock - us| * r.price_stock +
    |base * cfg.crypto_weight / r.price_crypto - uc| * r.price_crypto

/-- The value-conservation relation between two consecutive snapshots: if the
later day rebalanced, its closing (post-trade) portfolio value equals the
mark-to-market value, at the later day's prices, of the units carried out of
the earlier day. -/
def postEqPre (prev cur : DayRecord) : Prop :=
  cur.is_rebalance = true →
    cur.portfolio_value =
      prev.units_stock * cur.price_stock + prev.units_crypto * cur.price_crypto

/-! ### The metrics calculator (`_compute_metrics`, lines 97-144)

The portfolio-value and daily-return series are modelled positionally as
`List ℚ`; the series' index labels are the aligned dates, which are strictly
increasing, so positional statements coincide with date statements. -/

/-- `series.min()` of a non-empty series (pandas takes the minimum value). -/
def listMin : List ℚ → ℚ
  | [] => 0
  | x :: xs => xs.foldl min x

/-- `series.max()` of a non-empty series. -/
def listMax : List ℚ → ℚ
  | [] => 0
  | x :: xs => xs.foldl max x

/-- Running maximum continuation: prefix maxima of a list, seeded with an
accumulator `m`. -/
def runningMaxFrom (m : ℚ) : List ℚ → List ℚ
  | [] => []
  | v :: vs => max m v :: runningMaxFrom (max m v) vs

/-- `portfolio_value.cummax()` (line 128): elementwise running maximum. -/
def runningMax : List ℚ → List ℚ
  | [] => []
  | v :: vs => v :: runningMaxFrom v vs

/-- `(portfolio_value / running_max) - 1.0` (line 129). -/
def drawdown (l : List ℚ) : List ℚ :=
  List.zipWith (fun v m => v / m - 1) l (runningMax l)

/-- `drawdown.min()` (line 130): the reported maximum drawdown. -/
def max_drawdown (l : List ℚ) : ℚ :=
  listMin (drawdown l)

/-- `drawdown.idxmin()` (line 131): pandas returns the label of the first
position attaining the minimum; positionally, the first index of the minimum
drawdown. -/
def mddEnd (l : List ℚ) : ℕ :=
  (drawdown l).indexOf (listMin (drawdown l))

/-- `portfolio_value.loc[:mdd_end].idxmax()` (line 132): the label slice is
inclusive of `mdd_end`, and pandas `idxmax` returns the first position
attaining the maximum of that prefix. -/
def mddStart (l : List ℚ) : ℕ :=
  (l.take (mddEnd l + 1)).indexOf (listMax (l.take (mddEnd l + 1)))

/-- Modelled from the spec's words for comparison with `mddStart`: "the last
date at or before the trough where value equals its all-time high to that
point". -/
def specMddStart (l : List ℚ) : ℕ :=
  ((List.range (mddEnd l + 1)).filter
    (fun i => decide (l.getD i 0 = (runningMax l).getD i 0))).getLastD 0

/-- `total_return = final_value / initial_capital - 1.0` (lines 105-106):
the final value is the last entry of the cleaned portfolio-value series. -/
def total_return (values : List ℚ) (initial_capital : ℚ) : ℚ :=
  values.getLastD 0 / initial_capital - 1

/-- `daily_returns.mean()`. -/
def listMean (l : List ℚ) : ℚ :=
  l.sum / (l.length : ℚ)

/-- `daily_returns.var(ddof=1)`, the Bessel-corrected sample variance that
`daily_returns.std(ddof=1)` takes the square root of. -/
def sampleVarianceQ (l : List ℚ) : ℚ :=
  (l.map (fun r => (r - listMean l) ^ 2)).sum / ((l.length : ℚ) - 1)

/-- `float(daily_returns.std(ddof=1)) * np.sqrt(252)` guarded by
`len(daily_returns) > 1` (lines 116-117, 124): the annualized volatility. -/
noncomputable def annual_volatility (rs : List ℚ) : ℝ :=
  if 1 < rs.length then
    Real.sqrt ((sampleVarianceQ rs : ℝ)) * Real.sqrt 252
  else 0

/-- Lines 116-125: Sharpe ratio with a zero risk-free rate: the geometric
annualization `(1 + mean) ** 252 - 1` divided by the annualized volatility
when the latter is positive, else `0.0`; also `0.0` with fewer than two
return observations. -/
noncomputable def sharpe_ratio (rs : List ℚ) : ℝ :=
  if 1 < rs.length then
    if 0 < annual_volatility rs then
      ((1 + (listMean rs : ℝ)) ^ (252 : ℕ) - 1) / annual_volatility rs
    else 0
  else 0

/-- Modelled from the spec's words: the Bessel-corrected sample standard
deviation of the daily returns, written directly over the reals. -/
noncomputable def specSampleStd (rs : List ℚ) : ℝ :=
  Real.sqrt (((rs.map (fun r : ℚ => ((r : ℝ) - (listMean rs : ℝ)) ^ 2)).sum) /
    ((rs.length : ℝ) - 1))

/-- Modelled from the spec's words: annualized volatility is the sample
standard deviation scaled by `sqrt 252`, and zero with fewer than 2
observations. -/
noncomputable def specAnnualVolatility (rs : List ℚ) : ℝ :=
  if rs.length < 2 then 0 else specSampleStd rs * Real.sqrt 252

/-- Modelled from the spec's words: Sharpe is the geometric annualized mean
return over the annualized volatility, and zero when the volatility is zero
or fewer than 2 observations exist. -/
noncomputable def specSharpeRatio (rs : List ℚ) : ℝ :=
  if rs.length < 2 then 0
  else if specAnnualVolatility rs = 0 then 0
  else ((1 + (listMean rs : ℝ)) ^ (252 : ℕ) - 1) / specAnnualVolatility rs

/-! ### Concrete instances used by counterexamples and witnesses -/

/-- The §8 scenario configuration: weights 0.75/0.25, capital 10000, no fee. -/
def cfg0 : SimConfig := ⟨3/4, 1/4, 10000, 0⟩

/-- Same as `cfg0` but with the default 10 bps fee. -/
def cfgFee : SimConfig := ⟨3/4, 1/4, 10000, 10⟩

/-- A configuration with a negative fee rate (and valid weights). -/
def cfgNegFee : SimConfig := ⟨3/4, 1/4, 10000, -10⟩

/-- A configuration with non-positive (zero) initial capital. -/
def cfgZeroCap : SimConfig := ⟨3/4, 1/4, 0, 10⟩

/-- The §8 scenario table with a generic second date in a new month:
d0 = 2020-01-15, d1 = 2020-02-10. -/
def tbl0 : List Row :=
  [⟨⟨2020, 1, 15⟩, 100, 20000⟩, ⟨⟨2020, 2, 10⟩, 110, 18000⟩]

/-- The §8 scenario table with the second date on its calendar month-end:
d0 = 2020-01-15, d1 = 2020-02-29 (2020 is a leap year). -/
def tblB : List Row :=
  [⟨⟨2020, 1, 15⟩, 100, 20000⟩, ⟨⟨2020, 2, 29⟩, 110, 18000⟩]

/-- A value series whose peak value recurs before the trough: the prefix
maximum is attained at positions 0 and 2, the trough is at position 3. -/
def lPeakTwice : List ℚ := [100, 50, 100, 40]

/-- A negative, strictly decreasing value series. -/
def lNeg : List ℚ := [-10, -20]

/-- A positive value series with a dip. -/
def lDip : List ℚ := [2, 1, 3]

/-! ### Inversion lemmas for the simulator -/

theorem isOk_eq_ok {e : Except BtError (List DayRecord)} (h : e.isOk = true) :
    e = .ok (recsOf e) := by
  cases e
  · simp [Except.isOk, Except.toBool] at h
  · rfl

theorem stepDay_fields {cfg : SimConfig} {sched : List Date} {b : Bool}
    {u : Units} {row : Row} {p : Units × DayRecord}
    (h : stepDay cfg sched b u row = .ok p) :
    p.2.units_stock = p.1.stock ∧ p.2.units_crypto = p.1.crypto ∧
    p.2.price_stock = row.stock ∧ p.2.price_crypto = row.crypto ∧
    p.2.date = row.date := by
  cases b with
  | true =>
    simp only [stepDay, eq_self_iff_true, or_true, if_true] at h
    split at h
    · cases h
    · injection h with h1
      subst h1
      simp
  | false =>
    simp only [stepDay, Bool.false_eq_true, or_false, if_false] at h
    split at h
    · split at h
      · cases h
      · injection h with h1
        subst h1
        simp
    · injection h with h1
      subst h1
      simp

theorem stepDay_is_rebalance {cfg : SimConfig} {sched : List Date} {b : Bool}
    {u : Units} {row : Row} {p : Units × DayRecord}
    (h : stepDay cfg sched b u row = .ok p) :
    p.2.is_rebalance = true ↔ (row.date ∈ sched ∨ b = true) := by
  cases b with
  | true =>
    simp only [stepDay, eq_self_iff_true, or_true, if_true] at h
    split at h
    · cases h
    · injection h with h1
      subst h1
      simp
  | false =>
    simp only [stepDay, Bool.false_eq_true, or_false, if_false] at h
    split at h
    · rename_i hcond
      split at h
      · cases h
      · injection h with h1
        subst h1
        simpa using hcond
    · rename_i hcond
      injection h with h1
      subst h1
      simpa using hcond

theorem stepDay_rebalance_inv {cfg : SimConfig} {sched : List Date} {b : Bool}
    {u : Units} {row : Row} {p : Units × DayRecord}
    (h : stepDay cfg sched b u row = .ok p)
    (hreb : p.2.is_rebalance = true) :
    ∃ A : ℚ,
      A = (if b then cfg.initial_capital else preTradeValue u row) -
          (|(if b then cfg.initial_capital else preTradeValue u row) *
              cfg.stock_weight / row.stock - u.stock| * row.stock +
           |(if b then cfg.initial_capital else preTradeValue u row) *
              cfg.crypto_weight / row.crypto - u.crypto| * row.crypto) *
            (cfg.fee_bps / 10000) ∧
      0 ≤ A ∧
      p.1.stock = A * cfg.stock_weight / row.stock ∧
      p.1.crypto = A * cfg.crypto_weight / row.crypto ∧
      p.2.value_stock = p.1.stock * row.stock ∧
      p.2.value_crypto = p.1.crypto * row.crypto ∧
      p.2.portfolio_value = p.1.stock * row.stock + p.1.crypto * row.crypto ∧
      p.2.weight_stock =
        (if 0 < p.2.portfolio_value then p.2.value_stock / p.2.portfolio_value else 0) ∧
      p.2.weight_crypto =
        (if 0 < p.2.portfolio_value then p.2.value_crypto / p.2.portfolio_value else 0) := by
  cases b with
  | true =>
    simp only [stepDay, preTradeValue, eq_self_iff_true, or_true, if_true] at h ⊢
    split at h
    · cases h
    · rename_i hfee
      injection h with h1
      subst h1
      simp only [not_lt] at hfee
      exact ⟨_, rfl, hfee, rfl, rfl, rfl, rfl, rfl, rfl, rfl⟩
  | false =>
    simp only [stepDay, preTradeValue, Bool.false_eq_true, or_false, if_false] at h ⊢
    split at h
    · split at h
      · cases h
      · rename_i hfee
        injection h with h1
        subst h1
        simp only [not_lt] at hfee
        exact ⟨_, rfl, hfee, rfl, rfl, rfl, rfl, rfl, rfl, rfl⟩
    · injection h with h1
      subst h1
      simp at hreb

theorem stepDay_not_rebalance_inv {cfg : SimConfig} {sched : List Date} {b : Bool}
    {u : Units} {row : Row} {p : Units × DayRecord}
    (h : stepDay cfg sched b u row = .ok p)
    (hreb : p.2.is_rebalance = false) :
    p.1 = u ∧ p.2.portfolio_value = preTradeValue u row := by
  cases b with
  | true =>
    simp only [stepDay, preTradeValue, eq_self_iff_true, or_true, if_true] at h ⊢
    split at h
    · cases h
    · injection h with h1
      subst h1
      simp at hreb
  | false =>
    simp only [stepDay, preTradeValue, Bool.false_eq_true, or_false, if_false] at h ⊢
    split at h
    · split at h
      · cases h
      · injection h with h1
        subst h1
        simp at hreb
    · injection h with h1
      subst h1
      simp

theorem runFrom_cons_ok {cfg : SimConfig} {sched : List Date} {b : Bool}
    {u : Units} {row : Row} {rows : List Row} {recs : List DayRecord}
    (h : runFrom cfg sched b u (row :: rows) = .ok recs) :
    ∃ p rest, stepDay cfg sched b u row = .ok p ∧
      runFrom cfg sched false p.1 rows = .ok rest ∧ recs = p.2 :: rest := by
  simp only [runFrom] at h
  split at h
  · cases h
  · rename_i u1 rec heq
    split at h
    · cases h
    · rename_i rest heq2
      injection h with h1
      exact ⟨(u1, rec), rest, heq, heq2, h1.symm⟩

theorem runFrom_map_date {cfg : SimConfig} {sched : List Date} :
    ∀ {rows : List Row} {b : Bool} {u : Units} {recs : List DayRecord},
      runFrom cfg sched b u rows = .ok recs →
      recs.map DayRecord.date = rows.map Row.date := by
  intro rows
  induction rows with
  | nil =>
    intro b u recs h
    simp only [runFrom] at h
    injection h with h1
    subst h1
    simp
  | cons row rows ih =>
    intro b u recs h
    obtain ⟨p, rest, hstep, hrun, hrecs⟩ := runFrom_cons_ok h
    subst hrecs
    have hf := stepDay_fields hstep
    simp [ih hrun, hf.2.2.2.2]

theorem runFrom_mem_step {cfg : SimConfig} {sched : List Date} :
    ∀ {rows : List Row} {b : Bool} {u : Units} {recs : List DayRecord},
      runFrom cfg sched b u rows = .ok recs →
      ∀ rec ∈ recs, ∃ (b1 : Bool) (u0 : Units) (p : Units × DayRecord) (row : Row),
        row ∈ rows ∧ stepDay cfg sched b1 u0 row = .ok p ∧ p.2 = rec := by
  intro rows
  induction rows with
  | nil =>
    intro b u recs h rec hrec
    simp only [runFrom] at h
    injection h with h1
    subst h1
    cases hrec
  | cons row rows ih =>
    intro b u recs h rec hrec
    obtain ⟨p, rest, hstep, hrun, hrecs⟩ := runFrom_cons_ok h
    subst hrecs
    rcases List.mem_cons.mp hrec with hhead | htail
    · exact ⟨b, u, p, row, List.mem_cons_self _ _, hstep, hhead.symm⟩
    · obtain ⟨b1, u0, q, row1, hrow1, hstep1, hq⟩ := ih hrun rec htail
      exact ⟨b1, u0, q, row1, List.mem_cons_of_mem _ hrow1, hstep1, hq⟩

theorem backtest_ok_inv {cfg : SimConfig} {table : List Row}
    {recs : List DayRecord} (h : backtest_75_25 cfg table = .ok recs) :
    npIsCloseOne (cfg.stock_weight + cfg.crypto_weight) ∧ 2 ≤ table.length ∧
      runFrom cfg (rebalance_dates table) true unitsInit table = .ok recs := by
  simp only [backtest_75_25] at h
  split at h
  · rename_i hclose
    split at h
    · cases h
    · rename_i hlen
      split at h
      · cases h
      · rename_i recs1 heq
        injection h with h1
        subst h1
        exact ⟨hclose, by omega, heq⟩
  · cases h

/-! ### Algebra of a rebalance step -/

theorem rebalance_post_value {A ws wc ps pc : ℚ} (hsum : ws + wc = 1)
    (hps : ps ≠ 0) (hpc : pc ≠ 0) :
    A * ws / ps * ps + A * wc / pc * pc = A := by
  rw [div_mul_cancel₀ _ hps, div_mul_cancel₀ _ hpc, ← mul_add, hsum, mul_one]

theorem first_day_notional {cap ws wc ps pc uz : ℚ} (hcap : 0 ≤ cap)
    (hws : 0 ≤ ws) (hwc : 0 ≤ wc) (hsum : ws + wc = 1)
    (hps : 0 < ps) (hpc : 0 < pc) (huz : uz = 0) :
    |cap * ws / ps - uz| * ps + |cap * wc / pc - uz| * pc = cap := by
  subst huz
  rw [sub_zero, sub_zero,
    abs_of_nonneg (div_nonneg (mul_nonneg hcap hws) hps.le),
    abs_of_nonneg (div_nonneg (mul_nonneg hcap hwc) hpc.le),
    div_mul_cancel₀ _ (ne_of_gt hps), div_mul_cancel₀ _ (ne_of_gt hpc),
    ← mul_add, hsum, mul_one]

theorem stepDay_rebalance_pv {cfg : SimConfig} {sched : List Date} {b : Bool}
    {u : Units} {row : Row} {p : Units × DayRecord}
    (h : stepDay cfg sched b u row = .ok p)
    (hreb : p.2.is_rebalance = true)
    (hsum : cfg.stock_weight + cfg.crypto_weight = 1)
    (hps : row.stock ≠ 0) (hpc : row.crypto ≠ 0) :
    p.2.portfolio_value =
      (if b then cfg.initial_capital else preTradeValue u row) -
        (|(if b then cfg.initial_capital else preTradeValue u row) *
            cfg.stock_weight / row.stock - u.stock| * row.stock +
         |(if b then cfg.initial_capital else preTradeValue u row) *
            cfg.crypto_weight / row.crypto - u.crypto| * row.crypto) *
          (cfg.fee_bps / 10000) := by
  obtain ⟨A, hA, -, hs, hc, -, -, hpv, -, -⟩ := stepDay_rebalance_inv h hreb
  rw [hpv, hs, hc, rebalance_post_value hsum hps hpc, hA]

theorem stepDay_feeZero_value {cfg : SimConfig} {sched : List Date} {b : Bool}
    {u : Units} {row : Row} {p : Units × DayRecord}
    (h : stepDay cfg sched b u row = .ok p)
    (hfee : cfg.fee_bps = 0)
    (hsum : cfg.stock_weight + cfg.crypto_weight = 1)
    (hps : row.stock ≠ 0) (hpc : row.crypto ≠ 0)
    (hreb : p.2.is_rebalance = true) :
    p.2.portfolio_value = (if b then cfg.initial_capital else preTradeValue u row) := by
  rw [stepDay_rebalance_pv h hreb hsum hps hpc, hfee]
  ring

theorem stepDay_rebalance_weights {cfg : SimConfig} {sched : List Date} {b : Bool}
    {u : Units} {row : Row} {p : Units × DayRecord}
    (h : stepDay cfg sched b u row = .ok p)
    (hsum : cfg.stock_weight + cfg.crypto_weight = 1)
    (hps : row.stock ≠ 0) (hpc : row.crypto ≠ 0)
    (hreb : p.2.is_rebalance = true) :
    (0 < p.2.portfolio_value →
      p.2.weight_stock = cfg.stock_weight ∧ p.2.weight_crypto = cfg.crypto_weight) ∧
    (¬ 0 < p.2.portfolio_value →
      p.2.weight_stock = 0 ∧ p.2.weight_crypto = 0) := by
  obtain ⟨A, -, -, hs, hc, hvs, hvc, hpv, hws, hwc⟩ := stepDay_rebalance_inv h hreb
  have hpvA : p.2.portfolio_value = A := by
    rw [hpv, hs, hc, rebalance_post_value hsum hps hpc]
  constructor
  · intro hpos
    have hA : A ≠ 0 := by rw [hpvA] at hpos; exact ne_of_gt hpos
    have hvsA : p.2.value_stock = A * cfg.stock_weight := by
      rw [hvs, hs, div_mul_cancel₀ _ hps]
    have hvcA : p.2.value_crypto = A * cfg.crypto_weight := by
      rw [hvc, hc, div_mul_cancel₀ _ hpc]
    rw [hws, hwc, if_pos hpos, if_pos hpos, hvsA, hvcA, hpvA,
      mul_comm A cfg.stock_weight, mul_comm A cfg.crypto_weight,
      mul_div_assoc, mul_div_assoc, div_self hA, mul_one, mul_one]
    exact ⟨rfl, rfl⟩
  · intro hneg
    rw [hws, hwc, if_neg hneg, if_neg hneg]
    exact ⟨rfl, rfl⟩

/-- Post-trade value equals pre-trade value along a fee-free run: the chain
of consecutive records satisfies `postEqPre`, and the head record of a run
started on the first day carries `initial_capital` as its closing value. -/
theorem runFrom_feeZero_chain {cfg : SimConfig} {sched : List Date}
    (hfee : cfg.fee_bps = 0) (hsum : cfg.stock_weight + cfg.crypto_weight = 1) :
    ∀ {rows : List Row} {b : Bool} {u : Units} {recs : List DayRecord},
      (∀ r ∈ rows, r.stock ≠ 0 ∧ r.crypto ≠ 0) →
      runFrom cfg sched b u rows = .ok recs →
      List.Chain' postEqPre recs ∧
      (b = false → ∀ rec ∈ recs.head?, rec.is_rebalance = true →
        rec.portfolio_value =
          u.stock * rec.price_stock + u.crypto * rec.price_crypto) ∧
      (b = true → ∀ rec ∈ recs.head?, rec.portfolio_value = cfg.initial_capital) := by
  intro rows
  induction rows with
  | nil =>
    intro b u recs hp h
    simp only [runFrom] at h
    injection h with h1
    subst h1
    simp
  | cons row rows ih =>
    intro b u recs hp h
    obtain ⟨p, rest, hstep, hrun, hrecs⟩ := runFrom_cons_ok h
    subst hrecs
    have hprow := hp row (List.mem_cons_self _ _)
    have hrest := ih (fun r hr => hp r (List.mem_cons_of_mem _ hr)) hrun
    have hfld := stepDay_fields hstep
    refine ⟨?_, ?_, ?_⟩
    · rw [List.chain'_cons']
      refine ⟨?_, hrest.1⟩
      intro y hy
      intro hyreb
      have hval := hrest.2.1 rfl y hy hyreb
      rw [hval, hfld.1, hfld.2.1]
    · intro hb rec hrec hreb
      simp only [List.head?_cons, Option.mem_def, Option.some.injEq] at hrec
      subst hrec
      have hval := stepDay_feeZero_value hstep hfee hsum hprow.1 hprow.2 hreb
      rw [hb] at hval
      simp only [Bool.false_eq_true, if_false] at hval
      rw [hval, preTradeValue, hfld.2.2.1, hfld.2.2.2.1]
    · intro hb rec hrec
      simp only [List.head?_cons, Option.mem_def, Option.some.injEq] at hrec
      subst hrec
      have hreb : p.2.is_rebalance = true := by
        rw [stepDay_is_rebalance hstep, hb]
        exact Or.inr rfl
      have hval := stepDay_feeZero_value hstep hfee hsum hprow.1 hprow.2 hreb
      rw [hb] at hval
      simpa using hval

theorem getLastD_map_pv : ∀ (l : List DayRecord) (d : DayRecord),
    (l.map (fun r => r.portfolio_value)).getLastD d.portfolio_value =
      (l.getLastD d).portfolio_value := by
  intro l
  induction l with
  | nil => intro d; rfl
  | cons x xs ih =>
    intro d
    simp only [List.map_cons, List.getLastD_cons]
    exact ih x

/-! ### Fee monotonicity machinery: a run with a higher fee is a pointwise
rescaling (by a factor in `[0,1]`) of the run with the lower fee. -/

theorem scale_factor {A1 A2 : ℚ} (h1 : 0 ≤ A1) (h2 : 0 ≤ A2) (h12 : A2 ≤ A1) :
    ∃ ν : ℚ, 0 ≤ ν ∧ ν ≤ 1 ∧ A2 = ν * A1 := by
  rcases eq_or_lt_of_le h1 with h0 | h0
  · refine ⟨0, le_refl 0, zero_le_one, ?_⟩
    have hA2 : A2 = 0 := le_antisymm (h12.trans h0.symm.le) h2
    rw [hA2, zero_mul]
  · exact ⟨A2 / A1, div_nonneg h2 h0.le, (div_le_one h0).mpr h12,
      (div_mul_cancel₀ A2 (ne_of_gt h0)).symm⟩

theorem stepDay_scale {cfg1 cfg2 : SimConfig} {sched : List Date} {b : Bool}
    {u1 u2 : Units} {row : Row} {p1 p2 : Units × DayRecord}
    (hw1 : cfg2.stock_weight = cfg1.stock_weight)
    (hw2 : cfg2.crypto_weight = cfg1.crypto_weight)
    (hcap : cfg2.initial_capital = cfg1.initial_capital)
    (hf12 : cfg1.fee_bps ≤ cfg2.fee_bps)
    (hws : 0 ≤ cfg1.stock_weight) (hwc : 0 ≤ cfg1.crypto_weight)
    (hsum : cfg1.stock_weight + cfg1.crypto_weight = 1)
    (hps : 0 < row.stock) (hpc : 0 < row.crypto)
    {μ : ℚ} (hμ0 : 0 ≤ μ) (hμ1 : μ ≤ 1)
    (hus : u2.stock = μ * u1.stock) (huc : u2.crypto = μ * u1.crypto)
    (hu1s : 0 ≤ u1.stock) (hu1c : 0 ≤ u1.crypto)
    (hb : b = true → u1 = unitsInit ∧ μ = 1)
    (h1 : stepDay cfg1 sched b u1 row = .ok p1)
    (h2 : stepDay cfg2 sched b u2 row = .ok p2) :
    ∃ ν : ℚ, 0 ≤ ν ∧ ν ≤ 1 ∧
      p2.1.stock = ν * p1.1.stock ∧ p2.1.crypto = ν * p1.1.crypto ∧
      0 ≤ p1.1.stock ∧ 0 ≤ p1.1.crypto ∧
      p2.2.portfolio_value = ν * p1.2.portfolio_value ∧
      0 ≤ p1.2.portfolio_value := by
  have hf' : cfg1.fee_bps / 10000 ≤ cfg2.fee_bps / 10000 :=
    (div_le_div_iff_of_pos_right (by norm_num)).mpr hf12
  by_cases hcond : row.date ∈ sched ∨ b = true
  · have hreb1 : p1.2.is_rebalance = true := (stepDay_is_rebalance h1).mpr hcond
    have hreb2 : p2.2.is_rebalance = true := (stepDay_is_rebalance h2).mpr hcond
    obtain ⟨A1, hA1, hA1nn, hs1, hc1, -, -, hpv1, -, -⟩ :=
      stepDay_rebalance_inv h1 hreb1
    obtain ⟨A2, hA2, hA2nn, hs2, hc2, -, -, hpv2, -, -⟩ :=
      stepDay_rebalance_inv h2 hreb2
    have hsum2 : cfg2.stock_weight + cfg2.crypto_weight = 1 := by
      rw [hw1, hw2]; exact hsum
    have hpv1A : p1.2.portfolio_value = A1 := by
      rw [hpv1, hs1, hc1, rebalance_post_value hsum (ne_of_gt hps) (ne_of_gt hpc)]
    have hpv2A : p2.2.portfolio_value = A2 := by
      rw [hpv2, hs2, hc2, rebalance_post_value hsum2 (ne_of_gt hps) (ne_of_gt hpc)]
    have hA21 : A2 ≤ A1 := by
      cases b with
      | true =>
        obtain ⟨hu1, hμ⟩ := hb rfl
        have hu1s0 : u1.stock = 0 := by rw [hu1]; rfl
        have hu1c0 : u1.crypto = 0 := by rw [hu1]; rfl
        have hu2s0 : u2.stock = 0 := by rw [hus, hμ, hu1s0, mul_zero]
        have hu2c0 : u2.crypto = 0 := by rw [huc, hμ, hu1c0, mul_zero]
        simp only [eq_self_iff_true, if_true] at hA1 hA2
        rw [hu1s0, hu1c0] at hA1
        rw [hcap, hw1, hw2, hu2s0, hu2c0] at hA2
        rw [hA1, hA2]
        refine sub_le_sub_left (mul_le_mul_of_nonneg_left hf' ?_) _
        exact add_nonneg (mul_nonneg (abs_nonneg _) hps.le)
          (mul_nonneg (abs_nonneg _) hpc.le)
      | false =>
        simp only [Bool.false_eq_true, if_false, preTradeValue] at hA1 hA2
        rw [hw1, hw2, hus, huc] at hA2
        have hX : (μ * u1.stock * row.stock + μ * u1.crypto * row.crypto) *
            cfg1.stock_weight / row.stock - μ * u1.stock =
            μ * ((u1.stock * row.stock + u1.crypto * row.crypto) *
              cfg1.stock_weight / row.stock - u1.stock) := by
          ring
        have hY : (μ * u1.stock * row.stock + μ * u1.crypto * row.crypto) *
            cfg1.crypto_weight / row.crypto - μ * u1.crypto =
            μ * ((u1.stock * row.stock + u1.crypto * row.crypto) *
              cfg1.crypto_weight / row.crypto - u1.crypto) := by
          ring
        rw [hX, hY, abs_mul, abs_mul, abs_of_nonneg hμ0] at hA2
        have hT1nn : 0 ≤
            |(u1.stock * row.stock + u1.crypto * row.crypto) *
              cfg1.stock_weight / row.stock - u1.stock| * row.stock +
            |(u1.stock * row.stock + u1.crypto * row.crypto) *
              cfg1.crypto_weight / row.crypto - u1.crypto| * row.crypto :=
          add_nonneg (mul_nonneg (abs_nonneg _) hps.le)
            (mul_nonneg (abs_nonneg _) hpc.le)
        calc A2 = μ * (u1.stock * row.stock + u1.crypto * row.crypto -
              (|(u1.stock * row.stock + u1.crypto * row.crypto) *
                cfg1.stock_weight / row.stock - u1.stock| * row.stock +
               |(u1.stock * row.stock + u1.crypto * row.crypto) *
                cfg1.crypto_weight / row.crypto - u1.crypto| * row.crypto) *
                (cfg2.fee_bps / 10000)) := by
              rw [hA2]; ring
          _ ≤ μ * (u1.stock * row.stock + u1.crypto * row.crypto -
              (|(u1.stock * row.stock + u1.crypto * row.crypto) *
                cfg1.stock_weight / row.stock - u1.stock| * row.stock +
               |(u1.stock * row.stock + u1.crypto * row.crypto) *
                cfg1.crypto_weight / row.crypto - u1.crypto| * row.crypto) *
                (cfg1.fee_bps / 10000)) := by
              refine mul_le_mul_of_nonneg_left ?_ hμ0
              exact sub_le_sub_left (mul_le_mul_of_nonneg_left hf' hT1nn) _
          _ = μ * A1 := by rw [hA1]
          _ ≤ A1 := mul_le_of_le_one_left hA1nn hμ1
    obtain ⟨ν, hν0, hν1, hνA⟩ := scale_factor hA1nn hA2nn hA21
    refine ⟨ν, hν0, hν1, ?_, ?_, ?_, ?_, ?_, ?_⟩
    · rw [hs2, hs1, hw1, hνA]; ring
    · rw [hc2, hc1, hw2, hνA]; ring
    · rw [hs1]; exact div_nonneg (mul_nonneg hA1nn hws) hps.le
    · rw [hc1]; exact div_nonneg (mul_nonneg hA1nn hwc) hpc.le
    · rw [hpv2A, hpv1A, hνA]
    · rw [hpv1A]; exact hA1nn
  · have hreb1 : p1.2.is_rebalance = false :=
      Bool.eq_false_iff.mpr (fun hx => hcond ((stepDay_is_rebalance h1).mp hx))
    have hreb2 : p2.2.is_rebalance = false :=
      Bool.eq_false_iff.mpr (fun hx => hcond ((stepDay_is_rebalance h2).mp hx))
    obtain ⟨hu1eq, hpv1'⟩ := stepDay_not_rebalance_inv h1 hreb1
    obtain ⟨hu2eq, hpv2'⟩ := stepDay_not_rebalance_inv h2 hreb2
    refine ⟨μ, hμ0, hμ1, ?_, ?_, ?_, ?_, ?_, ?_⟩
    · rw [hu2eq, hu1eq, hus]
    · rw [hu2eq, hu1eq, huc]
    · rw [hu1eq]; exact hu1s
    · rw [hu1eq]; exact hu1c
    · rw [hpv2', hpv1', preTradeValue, preTradeValue, hus, huc]; ring
    · rw [hpv1', preTradeValue]
      exact add_nonneg (mul_nonneg hu1s hps.le) (mul_nonneg hu1c hpc.le)

theorem runFrom_scale {cfg1 cfg2 : SimConfig} {sched : List Date}
    (hw1 : cfg2.stock_weight = cfg1.stock_weight)
    (hw2 : cfg2.crypto_weight = cfg1.crypto_weight)
    (hcap : cfg2.initial_capital = cfg1.initial_capital)
    (hf12 : cfg1.fee_bps ≤ cfg2.fee_bps)
    (hws : 0 ≤ cfg1.stock_weight) (hwc : 0 ≤ cfg1.crypto_weight)
    (hsum : cfg1.stock_weight + cfg1.crypto_weight = 1) :
    ∀ {rows : List Row} {b : Bool} {u1 u2 : Units} {μ : ℚ}
      {recs1 recs2 : List DayRecord},
      (∀ r ∈ rows, 0 < r.stock ∧ 0 < r.crypto) →
      0 ≤ μ → μ ≤ 1 →
      u2.stock = μ * u1.stock → u2.crypto = μ * u1.crypto →
      0 ≤ u1.stock → 0 ≤ u1.crypto →
      (b = true → u1 = unitsInit ∧ μ = 1) →
      runFrom cfg1 sched b u1 rows = .ok recs1 →
      runFrom cfg2 sched b u2 rows = .ok recs2 →
      List.Forall₂ (fun r1 r2 =>
        r2.portfolio_value ≤ r1.portfolio_value ∧ 0 ≤ r1.portfolio_value)
        recs1 recs2 := by
  intro rows
  induction rows with
  | nil =>
    intro b u1 u2 μ recs1 recs2 hp hμ0 hμ1 hus huc hu1s hu1c hb h1 h2
    simp only [runFrom] at h1 h2
    injection h1 with h1e
    injection h2 with h2e
    subst h1e
    subst h2e
    exact List.Forall₂.nil
  | cons row rows ih =>
    intro b u1 u2 μ recs1 recs2 hp hμ0 hμ1 hus huc hu1s hu1c hb h1 h2
    obtain ⟨p1, rest1, hstep1, hrun1, hrecs1⟩ := runFrom_cons_ok h1
    obtain ⟨p2, rest2, hstep2, hrun2, hrecs2⟩ := runFrom_cons_ok h2
    subst hrecs1
    subst hrecs2
    have hprow := hp row (List.mem_cons_self _ _)
    obtain ⟨ν, hν0, hν1, hvs, hvc, hnns, hnnc, hpv, hpvnn⟩ :=
      stepDay_scale hw1 hw2 hcap hf12 hws hwc hsum hprow.1 hprow.2
        hμ0 hμ1 hus huc hu1s hu1c hb hstep1 hstep2
    refine List.Forall₂.cons ⟨?_, hpvnn⟩ ?_
    · rw [hpv]
      exact mul_le_of_le_one_left hpvnn hν1
    · exact ih (fun r hr => hp r (List.mem_cons_of_mem _ hr)) hν0 hν1 hvs hvc
        hnns hnnc (by simp) hrun1 hrun2

theorem forall2_getLastD {R : DayRecord → DayRecord → Prop} :
    ∀ {l1 l2 : List DayRecord}, List.Forall₂ R l1 l2 →
      ∀ {a b : DayRecord}, R a b → R (l1.getLastD a) (l2.getLastD b) := by
  intro l1 l2 h
  induction h with
  | nil => intro a b hab; exact hab
  | cons hxy htail ih =>
    intro a b hab
    simp only [List.getLastD_cons]
    exact ih hxy

/-! ### Claims C1, C2, C3 -/

/-- Claim C1, counterexample: the derived schedule
`prices.resample("M").last().index` consists of calendar month-end labels,
and for the table with aligned days 2020-01-15 and 2020-02-10 it contains
2020-01-31, a date that does not appear in the aligned table.  So not every
scheduled date is a date of the aligned table. -/
theorem claim_C1_counterexample :
    (⟨2020, 1, 31⟩ : Date) ∈ rebalance_dates tbl0 ∧
    (⟨2020, 1, 31⟩ : Date) ∉ tbl0.map Row.date := by
  decide

/-- Claim C1 (amended): the schedule itself may contain calendar month-end
labels absent from the aligned table, but a rebalance only ever executes on a
day of the walk: the emitted records' dates are exactly the aligned table's
dates, so in particular every executed rebalance day is an aligned trading
day and never requires interpolation. -/
theorem claim_C1_amended (cfg : SimConfig) (table : List Row)
    (hok : (backtest_75_25 cfg table).isOk = true) :
    (recsOf (backtest_75_25 cfg table)).map DayRecord.date = table.map Row.date ∧
    ∀ rec ∈ recsOf (backtest_75_25 cfg table), rec.is_rebalance = true →
      rec.date ∈ table.map Row.date := by
  obtain ⟨_, _, hrun⟩ := backtest_ok_inv (isOk_eq_ok hok)
  have hmap := runFrom_map_date hrun
  refine ⟨hmap, ?_⟩
  intro rec hrec _
  rw [← hmap]
  exact List.mem_map_of_mem _ hrec

/-- Claim C1, witness: the amended claim applied to the concrete run on
`tbl0`. -/
theorem claim_C1_witness :
    (recsOf (backtest_75_25 cfg0 tbl0)).map DayRecord.date = tbl0.map Row.date ∧
    ((recsOf (backtest_75_25 cfg0 tbl0)).headD default).date ∈ tbl0.map Row.date := by
  have h := claim_C1_amended cfg0 tbl0 (by
    norm_num [backtest_75_25, npIsCloseOne, tbl0, cfg0, runFrom, stepDay,
      rebalance_dates, unitsInit, monthEnd, monthLength, isLeap, Except.isOk,
      Except.toBool])
  refine ⟨h.1, h.2 _ ?_ ?_⟩
  · norm_num [backtest_75_25, npIsCloseOne, tbl0, cfg0, runFrom, stepDay,
      rebalance_dates, unitsInit, monthEnd, monthLength, isLeap, recsOf]
  · norm_num [backtest_75_25, npIsCloseOne, tbl0, cfg0, runFrom, stepDay,
      rebalance_dates, unitsInit, monthEnd, monthLength, isLeap, recsOf]

/-- Claim C2, counterexample: a negative fee rate and a non-positive initial
capital are not rejected: runs with `fee_bps = -10` and with
`initial_capital = 0` both complete successfully instead of failing with a
configuration error. -/
theorem claim_C2_counterexample :
    cfgNegFee.fee_bps < 0 ∧ (backtest_75_25 cfgNegFee tbl0).isOk = true ∧
    cfgZeroCap.initial_capital ≤ 0 ∧ (backtest_75_25 cfgZeroCap tbl0).isOk = true := by
  refine ⟨by norm_num [cfgNegFee], ?_, by norm_num [cfgZeroCap], ?_⟩
  · norm_num [backtest_75_25, npIsCloseOne, tbl0, cfgNegFee, runFrom, stepDay,
      rebalance_dates, unitsInit, monthEnd, monthLength, isLeap, Except.isOk,
      Except.toBool, abs_of_nonneg, abs_of_nonpos]
  · norm_num [backtest_75_25, npIsCloseOne, tbl0, cfgZeroCap, runFrom, stepDay,
      rebalance_dates, unitsInit, monthEnd, monthLength, isLeap, Except.isOk,
      Except.toBool, abs_of_nonneg, abs_of_nonpos]

/-- Claim C2 (amended): the only configuration check performed before any
simulation work is the weight-sum closeness test: the run fails with the
configuration error exactly when `stock_weight + crypto_weight` is not close
to 1, regardless of `fee_bps` and `initial_capital`. -/
theorem claim_C2_amended (cfg : SimConfig) (table : List Row) :
    backtest_75_25 cfg table = .error .configError ↔
      ¬ npIsCloseOne (cfg.stock_weight + cfg.crypto_weight) := by
  by_cases h : npIsCloseOne (cfg.stock_weight + cfg.crypto_weight)
  · refine iff_of_false ?_ (not_not_intro h)
    simp only [backtest_75_25, if_pos h]
    split
    · simp
    · split <;> simp
  · refine iff_of_true ?_ h
    simp [backtest_75_25, h]

/-- Claim C3, counterexample: with d0 = 2020-01-15 and d1 = 2020-02-10 in
different calendar months, weights 0.75/0.25, capital 10000, no fee and
monthly rebalancing, the run succeeds and rebalances on d0, but d1 is NOT a
rebalance day (2020-02-10 is not a calendar month-end label), contradicting
"the simulator rebalances on both d0 and d1". -/
theorem claim_C3_counterexample :
    (backtest_75_25 cfg0 tbl0).isOk = true ∧
    ((recsOf (backtest_75_25 cfg0 tbl0)).getD 0 default).is_rebalance = true ∧
    ((recsOf (backtest_75_25 cfg0 tbl0)).getD 1 default).is_rebalance = false := by
  norm_num [backtest_75_25, npIsCloseOne, tbl0, cfg0, runFrom, stepDay,
    rebalance_dates, unitsInit, monthEnd, monthLength, isLeap, recsOf,
    Except.isOk, Except.toBool]

/-- Claim C3 (amended): the scenario holds when d1 is additionally the
calendar month-end of its month (here d1 = 2020-02-29): both days rebalance,
the d0 holdings are `units_stable = 75` and `units_volatile = 0.125`, the d1
pre-rebalance mark-to-market value is `10500`, and the total return is 5%.
For a generic d1 in a different month (see the counterexample) no rebalance
occurs on d1, though the holdings and the 10500 value still hold. -/
theorem claim_C3_amended :
    (backtest_75_25 cfg0 tblB).isOk = true ∧
    ((recsOf (backtest_75_25 cfg0 tblB)).getD 0 default).is_rebalance = true ∧
    ((recsOf (backtest_75_25 cfg0 tblB)).getD 1 default).is_rebalance = true ∧
    ((recsOf (backtest_75_25 cfg0 tblB)).getD 0 default).units_stock = 75 ∧
    ((recsOf (backtest_75_25 cfg0 tblB)).getD 0 default).units_crypto = 1/8 ∧
    preTradeValue
      ⟨((recsOf (backtest_75_25 cfg0 tblB)).getD 0 default).units_stock,
       ((recsOf (backtest_75_25 cfg0 tblB)).getD 0 default).units_crypto⟩
      (tblB.getD 1 default) = 10500 ∧
    total_return
      ((recsOf (backtest_75_25 cfg0 tblB)).map (fun r => r.portfolio_value))
      10000 = 1/20 := by
  norm_num [backtest_75_25, npIsCloseOne, tblB, cfg0, runFrom, stepDay,
    rebalance_dates, unitsInit, monthEnd, monthLength, isLeap, recsOf,
    Except.isOk, Except.toBool, preTradeValue, total_return, List.getLastD]

/-! ### Claims C4, C6, C10 -/

/-- Claim C4, counterexample: the first aligned day is a rebalance day, and
with `fee_rate = 0` its post-trade total value is `10000` (the initial
capital), while the pre-trade mark-to-market value of the held units (none)
is `0` — so "on every rebalance day post-trade value equals pre-trade value"
fails on the first day. -/
theorem claim_C4_counterexample :
    cfg0.fee_bps = 0 ∧
    (backtest_75_25 cfg0 tbl0).isOk = true ∧
    ((recsOf (backtest_75_25 cfg0 tbl0)).getD 0 default).is_rebalance = true ∧
    ((recsOf (backtest_75_25 cfg0 tbl0)).getD 0 default).portfolio_value ≠
      preTradeValue unitsInit (tbl0.getD 0 default) := by
  norm_num [backtest_75_25, npIsCloseOne, tbl0, cfg0, runFrom, stepDay,
    rebalance_dates, unitsInit, monthEnd, monthLength, isLeap, recsOf,
    Except.isOk, Except.toBool, preTradeValue]

/-- Claim C4 (amended): with `fee_rate = 0` and weights summing exactly
to 1, on every rebalance day other than the first the post-trade total value
equals the pre-trade mark-to-market value exactly (`postEqPre` holds between
every pair of consecutive records), while the first day's post-trade value
equals `initial_capital` (its pre-trade value is 0). -/
theorem claim_C4_amended (cfg : SimConfig) (table : List Row)
    {recs : List DayRecord}
    (hfee : cfg.fee_bps = 0) (hsum : cfg.stock_weight + cfg.crypto_weight = 1)
    (hp : ∀ r ∈ table, r.stock ≠ 0 ∧ r.crypto ≠ 0)
    (hbt : backtest_75_25 cfg table = .ok recs) :
    ((recs.headD default).portfolio_value = cfg.initial_capital ∧
      List.Chain' postEqPre recs) := by
  obtain ⟨-, hlen, hrun⟩ := backtest_ok_inv hbt
  obtain ⟨hchain, -, hhead⟩ := runFrom_feeZero_chain hfee hsum hp hrun
  have hmap := runFrom_map_date hrun
  cases recs with
  | nil =>
    exfalso
    have h2 : table.map Row.date = [] := hmap.symm
    rw [List.map_eq_nil_iff] at h2
    rw [h2] at hlen
    simp at hlen
  | cons rec rest =>
    refine ⟨?_, hchain⟩
    have := hhead rfl rec (by simp)
    simpa using this

/-- Claim C4, witness: the amended claim applied to the fee-free run on
`tbl0`. -/
theorem claim_C4_witness :
    ((recsOf (backtest_75_25 cfg0 tbl0)).headD default).portfolio_value =
      cfg0.initial_capital ∧
    List.Chain' postEqPre (recsOf (backtest_75_25 cfg0 tbl0)) :=
  claim_C4_amended cfg0 tbl0 rfl (by norm_num [cfg0]) (by norm_num [tbl0])
    (isOk_eq_ok (by
      norm_num [backtest_75_25, npIsCloseOne, tbl0, cfg0, runFrom, stepDay,
        rebalance_dates, unitsInit, monthEnd, monthLength, isLeap,
        Except.isOk, Except.toBool]))

/-- Claim C6: on every emitted rebalance-day snapshot (post-trade), with
weights summing exactly to 1, the realized stable weight equals the target
exactly whenever the portfolio value is positive (so the deviation is zero
and independent of price drift), and is 0 when the post-trade value is not
positive (the division guard). -/
theorem claim_C6 (cfg : SimConfig) (table : List Row) {recs : List DayRecord}
    (hsum : cfg.stock_weight + cfg.crypto_weight = 1)
    (hp : ∀ r ∈ table, r.stock ≠ 0 ∧ r.crypto ≠ 0)
    (hbt : backtest_75_25 cfg table = .ok recs) :
    ∀ rec ∈ recs, rec.is_rebalance = true →
      (0 < rec.portfolio_value →
        rec.weight_stock = cfg.stock_weight ∧
        rec.weight_crypto = cfg.crypto_weight) ∧
      (¬ 0 < rec.portfolio_value →
        rec.weight_stock = 0 ∧ rec.weight_crypto = 0) := by
  obtain ⟨-, -, hrun⟩ := backtest_ok_inv hbt
  intro rec hrec hreb
  obtain ⟨b1, u0, p, row, hrow, hstep, hp2⟩ := runFrom_mem_step hrun rec hrec
  subst hp2
  exact stepDay_rebalance_weights hstep hsum (hp row hrow).1 (hp row hrow).2 hreb

/-- Claim C6, witness: on the first (rebalance) day of the concrete run the
realized weights equal the targets exactly. -/
theorem claim_C6_witness :
    ((recsOf (backtest_75_25 cfg0 tbl0)).headD default).weight_stock =
      cfg0.stock_weight ∧
    ((recsOf (backtest_75_25 cfg0 tbl0)).headD default).weight_crypto =
      cfg0.crypto_weight := by
  have h := claim_C6 cfg0 tbl0 (by norm_num [cfg0]) (by norm_num [tbl0])
    (isOk_eq_ok (by
      norm_num [backtest_75_25, npIsCloseOne, tbl0, cfg0, runFrom, stepDay,
        rebalance_dates, unitsInit, monthEnd, monthLength, isLeap,
        Except.isOk, Except.toBool]))
  refine (h _ ?_ ?_).1 ?_
  · norm_num [backtest_75_25, npIsCloseOne, tbl0, cfg0, runFrom, stepDay,
      rebalance_dates, unitsInit, monthEnd, monthLength, isLeap, recsOf]
  · norm_num [backtest_75_25, npIsCloseOne, tbl0, cfg0, runFrom, stepDay,
      rebalance_dates, unitsInit, monthEnd, monthLength, isLeap, recsOf]
  · norm_num [backtest_75_25, npIsCloseOne, tbl0, cfg0, runFrom, stepDay,
      rebalance_dates, unitsInit, monthEnd, monthLength, isLeap, recsOf]

/-- Claim C7: two runs that differ only in the fee rate, with
`0 ≤ fee1 < fee2`, nonnegative weights summing exactly to 1, positive prices
and at least one rebalance with nonzero traded notional in the cheaper run:
the final portfolio value under the higher fee is not greater than the final
value under the lower fee. -/
theorem claim_C7 (cfg1 cfg2 : SimConfig) (table : List Row)
    {recs1 recs2 : List DayRecord}
    (hw1 : cfg2.stock_weight = cfg1.stock_weight)
    (hw2 : cfg2.crypto_weight = cfg1.crypto_weight)
    (hcap : cfg2.initial_capital = cfg1.initial_capital)
    (hf1 : 0 ≤ cfg1.fee_bps) (hf12 : cfg1.fee_bps < cfg2.fee_bps)
    (hws : 0 ≤ cfg1.stock_weight) (hwc : 0 ≤ cfg1.crypto_weight)
    (hsum : cfg1.stock_weight + cfg1.crypto_weight = 1)
    (hp : ∀ r ∈ table, 0 < r.stock ∧ 0 < r.crypto)
    (hbt1 : backtest_75_25 cfg1 table = .ok recs1)
    (hbt2 : backtest_75_25 cfg2 table = .ok recs2)
    (hnz : ∃ i, i < recs1.length ∧ (recs1.getD i default).is_rebalance = true ∧
      tradedAt cfg1 recs1 i ≠ 0) :
    (recs2.getLastD default).portfolio_value ≤
      (recs1.getLastD default).portfolio_value := by
  obtain ⟨-, -, hrun1⟩ := backtest_ok_inv hbt1
  obtain ⟨-, -, hrun2⟩ := backtest_ok_inv hbt2
  have hall := runFrom_scale hw1 hw2 hcap hf12.le hws hwc hsum
    (μ := 1) hp zero_le_one le_rfl (one_mul _).symm (one_mul _).symm
    (le_of_eq rfl) (le_of_eq rfl) (fun _ => ⟨rfl, rfl⟩) hrun1 hrun2
  exact (forall2_getLastD hall ⟨le_rfl, le_of_eq rfl⟩).1

/-- Claim C7, witness: the concrete fee-free run on `tbl0` ends at 10500,
the same run with 10 bps fees ends at 10395; the theorem applies with the
first day as the rebalance with nonzero (10000) traded notional. -/
theorem claim_C7_witness :
    ((recsOf (backtest_75_25 cfgFee tbl0)).getLastD default).portfolio_value ≤
      ((recsOf (backtest_75_25 cfg0 tbl0)).getLastD default).portfolio_value := by
  refine claim_C7 cfg0 cfgFee tbl0 rfl rfl rfl (by norm_num [cfg0])
    (by norm_num [cfg0, cfgFee]) (by norm_num [cfg0]) (by norm_num [cfg0])
    (by norm_num [cfg0]) (by norm_num [tbl0])
    (isOk_eq_ok (by
      norm_num [backtest_75_25, npIsCloseOne, tbl0, cfg0, runFrom, stepDay,
        rebalance_dates, unitsInit, monthEnd, monthLength, isLeap,
        Except.isOk, Except.toBool]))
    (isOk_eq_ok (by
      norm_num [backtest_75_25, npIsCloseOne, tbl0, cfgFee, runFrom, stepDay,
        rebalance_dates, unitsInit, monthEnd, monthLength, isLeap,
        Except.isOk, Except.toBool, abs_of_nonneg, abs_of_nonpos]))
    ⟨0, ?_, ?_, ?_⟩
  · norm_num [backtest_75_25, npIsCloseOne, tbl0, cfg0, runFrom, stepDay,
      rebalance_dates, unitsInit, monthEnd, monthLength, isLeap, recsOf]
  · norm_num [backtest_75_25, npIsCloseOne, tbl0, cfg0, runFrom, stepDay,
      rebalance_dates, unitsInit, monthEnd, monthLength, isLeap, recsOf]
  · norm_num [tradedAt, backtest_75_25, npIsCloseOne, tbl0, cfg0, runFrom,
      stepDay, rebalance_dates, unitsInit, monthEnd, monthLength, isLeap,
      recsOf, abs_of_nonneg, abs_of_nonpos]

/-- Claim C10: on the first aligned day of every successful run the traded
notional equals `initial_capital` exactly, so the first snapshot's total
value is `initial_capital * (1 - fee_rate)` (the fee is charged on
establishing the initial position), while `total_return` divides the final
value by `initial_capital`, not by the fee-reduced first-day value. -/
theorem claim_C10 (cfg : SimConfig) (table : List Row) {recs : List DayRecord}
    (hws : 0 ≤ cfg.stock_weight) (hwc : 0 ≤ cfg.crypto_weight)
    (hsum : cfg.stock_weight + cfg.crypto_weight = 1)
    (hcap : 0 ≤ cfg.initial_capital)
    (hp : ∀ r ∈ table, 0 < r.stock ∧ 0 < r.crypto)
    (hbt : backtest_75_25 cfg table = .ok recs) :
    tradedAt cfg recs 0 = cfg.initial_capital ∧
    (recs.headD default).portfolio_value =
      cfg.initial_capital * (1 - cfg.fee_bps / 10000) ∧
    total_return (recs.map (fun r => r.portfolio_value)) cfg.initial_capital =
      (recs.getLastD default).portfolio_value / cfg.initial_capital - 1 := by
  obtain ⟨-, hlen, hrun⟩ := backtest_ok_inv hbt
  cases table with
  | nil => simp at hlen
  | cons row rows =>
    obtain ⟨p, rest, hstep, hrest, hrecs⟩ := runFrom_cons_ok hrun
    subst hrecs
    have hprow := hp row (List.mem_cons_self _ _)
    have hfld := stepDay_fields hstep
    have hreb : p.2.is_rebalance = true := by
      rw [stepDay_is_rebalance hstep]
      exact Or.inr rfl
    have hpv := stepDay_rebalance_pv hstep hreb hsum
      (ne_of_gt hprow.1) (ne_of_gt hprow.2)
    simp only [if_pos rfl, eq_self_iff_true, if_true] at hpv
    have hT := first_day_notional
      hcap hws hwc hsum hprow.1 hprow.2 (rfl : (unitsInit.stock : ℚ) = 0)
    refine ⟨?_, ?_, ?_⟩
    · simp only [tradedAt, List.getD_cons_zero, if_pos rfl, eq_self_iff_true,
        if_true]
      rw [hfld.2.2.1, hfld.2.2.2.1]
      exact first_day_notional hcap hws hwc hsum hprow.1 hprow.2 rfl
    · simp only [List.headD_cons]
      rw [hpv]
      have hunit : (unitsInit.stock : ℚ) = 0 ∧ (unitsInit.crypto : ℚ) = 0 :=
        ⟨rfl, rfl⟩
      rw [show (unitsInit.stock : ℚ) = 0 from rfl,
        show (unitsInit.crypto : ℚ) = 0 from rfl] at *
      rw [hT]
      ring
    · have h0 : (0 : ℚ) = (default : DayRecord).portfolio_value := rfl
      rw [total_return, h0, getLastD_map_pv]

/-- Claim C10, witness: the concrete run with the default 10 bps fee trades
a notional of exactly 10000 on the first day and closes it at
`10000 * (1 - 0.001) = 9990`. -/
theorem claim_C10_witness :
    tradedAt cfgFee (recsOf (backtest_75_25 cfgFee tbl0)) 0 =
      cfgFee.initial_capital ∧
    ((recsOf (backtest_75_25 cfgFee tbl0)).headD default).portfolio_value =
      cfgFee.initial_capital * (1 - cfgFee.fee_bps / 10000) := by
  have h := claim_C10 cfgFee tbl0 (by norm_num [cfgFee]) (by norm_num [cfgFee])
    (by norm_num [cfgFee]) (by norm_num [cfgFee]) (by norm_num [tbl0])
    (isOk_eq_ok (by
      norm_num [backtest_75_25, npIsCloseOne, tbl0, cfgFee, runFrom, stepDay,
        rebalance_dates, unitsInit, monthEnd, monthLength, isLeap,
        Except.isOk, Except.toBool, abs_of_nonneg, abs_of_nonpos]))
  exact ⟨h.1, h.2.1⟩

/-! ### List extrema and drawdown lemmas (claims C5 and C9) -/

theorem foldl_min_le_init : ∀ (l : List ℚ) (a : ℚ), l.foldl min a ≤ a := by
  intro l
  induction l with
  | nil => intro a; exact le_refl a
  | cons x xs ih => intro a; exact (ih (min a x)).trans (min_le_left a x)

theorem foldl_min_le_mem : ∀ (l : List ℚ) (a y : ℚ), y ∈ l → l.foldl min a ≤ y := by
  intro l
  induction l with
  | nil => intro a y hy; cases hy
  | cons x xs ih =>
    intro a y hy
    rcases List.mem_cons.mp hy with h | h
    · subst h
      exact (foldl_min_le_init xs (min a y)).trans (min_le_right a y)
    · exact ih (min a x) y h

theorem foldl_min_mem : ∀ (l : List ℚ) (a : ℚ), l.foldl min a = a ∨ l.foldl min a ∈ l := by
  intro l
  induction l with
  | nil => intro a; exact Or.inl rfl
  | cons x xs ih =>
    intro a
    rcases ih (min a x) with h | h
    · rcases min_choice a x with hm | hm
      · exact Or.inl (by rw [List.foldl_cons, h, hm])
      · exact Or.inr (by rw [List.foldl_cons, h, hm]; exact List.mem_cons_self x xs)
    · exact Or.inr (List.mem_cons_of_mem x h)

theorem listMin_le {l : List ℚ} {y : ℚ} (hy : y ∈ l) : listMin l ≤ y := by
  cases l with
  | nil => cases hy
  | cons x xs =>
    rcases List.mem_cons.mp hy with h | h
    · subst h; exact foldl_min_le_init xs y
    · exact foldl_min_le_mem xs x y h

theorem listMin_mem {l : List ℚ} (h : l ≠ []) : listMin l ∈ l := by
  cases l with
  | nil => exact absurd rfl h
  | cons x xs =>
    rcases foldl_min_mem xs x with h1 | h1
    · rw [listMin, h1]; exact List.mem_cons_self x xs
    · exact List.mem_cons_of_mem x h1

theorem init_le_foldl_max : ∀ (l : List ℚ) (a : ℚ), a ≤ l.foldl max a := by
  intro l
  induction l with
  | nil => intro a; exact le_refl a
  | cons x xs ih => intro a; exact (le_max_left a x).trans (ih (max a x))

theorem mem_le_foldl_max : ∀ (l : List ℚ) (a y : ℚ), y ∈ l → y ≤ l.foldl max a := by
  intro l
  induction l with
  | nil => intro a y hy; cases hy
  | cons x xs ih =>
    intro a y hy
    rcases List.mem_cons.mp hy with h | h
    · subst h
      exact (le_max_right a y).trans (init_le_foldl_max xs (max a y))
    · exact ih (max a x) y h

theorem foldl_max_mem : ∀ (l : List ℚ) (a : ℚ), l.foldl max a = a ∨ l.foldl max a ∈ l := by
  intro l
  induction l with
  | nil => intro a; exact Or.inl rfl
  | cons x xs ih =>
    intro a
    rcases ih (max a x) with h | h
    · rcases max_choice a x with hm | hm
      · exact Or.inl (by rw [List.foldl_cons, h, hm])
      · exact Or.inr (by rw [List.foldl_cons, h, hm]; exact List.mem_cons_self x xs)
    · exact Or.inr (List.mem_cons_of_mem x h)

theorem le_listMax {l : List ℚ} {y : ℚ} (hy : y ∈ l) : y ≤ listMax l := by
  cases l with
  | nil => cases hy
  | cons x xs =>
    rcases List.mem_cons.mp hy with h | h
    · subst h; exact init_le_foldl_max xs y
    · exact mem_le_foldl_max xs x y h

theorem listMax_mem {l : List ℚ} (h : l ≠ []) : listMax l ∈ l := by
  cases l with
  | nil => exact absurd rfl h
  | cons x xs =>
    rcases foldl_max_mem xs x with h1 | h1
    · rw [listMax, h1]; exact List.mem_cons_self x xs
    · exact List.mem_cons_of_mem x h1

theorem getD_indexOf : ∀ {l : List ℚ} {a : ℚ}, a ∈ l → l.getD (l.indexOf a) 0 = a := by
  intro l
  induction l with
  | nil => intro a ha; cases ha
  | cons x xs ih =>
    intro a ha
    by_cases hx : x = a
    · rw [List.indexOf_cons_eq xs hx, List.getD_cons_zero, hx]
    · have hmem : a ∈ xs := by
        rcases List.mem_cons.mp ha with h | h
        · exact absurd h.symm hx
        · exact h
      rw [List.indexOf_cons_ne xs hx, List.getD_cons_succ]
      exact ih hmem

theorem getD_lt_indexOf_ne : ∀ {l : List ℚ} {a : ℚ} {j : ℕ},
    j < l.indexOf a → l.getD j 0 ≠ a := by
  intro l
  induction l with
  | nil => intro a j hj; simp [List.indexOf] at hj
  | cons x xs ih =>
    intro a j hj
    by_cases hx : x = a
    · rw [List.indexOf_cons_eq xs hx] at hj
      exact absurd hj (Nat.not_lt_zero j)
    · rw [List.indexOf_cons_ne xs hx] at hj
      cases j with
      | zero => rw [List.getD_cons_zero]; exact hx
      | succ n =>
        rw [List.getD_cons_succ]
        exact ih (Nat.lt_of_succ_lt_succ hj)

theorem getD_take : ∀ (l : List ℚ) {n j : ℕ}, j < n → (l.take n).getD j 0 = l.getD j 0 := by
  intro l
  induction l with
  | nil => intro n j hj; simp
  | cons x xs ih =>
    intro n j hj
    cases n with
    | zero => exact absurd hj (Nat.not_lt_zero j)
    | succ m =>
      cases j with
      | zero => simp
      | succ i =>
        simp only [List.take_succ_cons, List.getD_cons_succ]
        exact ih (Nat.lt_of_succ_lt_succ hj)

theorem length_runningMaxFrom : ∀ (l : List ℚ) (m : ℚ),
    (runningMaxFrom m l).length = l.length := by
  intro l
  induction l with
  | nil => intro m; rfl
  | cons v vs ih => intro m; simp [runningMaxFrom, ih]

theorem length_runningMax (l : List ℚ) : (runningMax l).length = l.length := by
  cases l with
  | nil => rfl
  | cons v vs => simp [runningMax, length_runningMaxFrom]

theorem length_drawdown (l : List ℚ) : (drawdown l).length = l.length := by
  rw [drawdown, List.length_zipWith, length_runningMax, min_self]

theorem drawdown_ne_nil {l : List ℚ} (h : l ≠ []) : drawdown l ≠ [] := by
  intro h0
  apply h
  have := length_drawdown l
  rw [h0] at this
  exact List.length_eq_zero.mp this.symm

/-- The non-positivity of each drawdown entry over a positive series, seeded
with a positive running maximum. -/
theorem drawdownFrom_nonpos : ∀ (l : List ℚ) (m : ℚ), 0 < m →
    (∀ v ∈ l, 0 < v) →
    ∀ d ∈ List.zipWith (fun v mm => v / mm - 1) l (runningMaxFrom m l), d ≤ 0 := by
  intro l
  induction l with
  | nil => intro m hm hpos d hd; cases hd
  | cons v vs ih =>
    intro m hm hpos d hd
    have hv : 0 < v := hpos v (List.mem_cons_self v vs)
    have hmv : 0 < max m v := lt_of_lt_of_le hm (le_max_left m v)
    simp only [runningMaxFrom, List.zipWith_cons_cons, List.mem_cons] at hd
    rcases hd with hd | hd
    · subst hd
      have : v / max m v ≤ 1 := (div_le_one hmv).mpr (le_max_right m v)
      linarith
    · exact ih (max m v) hmv (fun x hx => hpos x (List.mem_cons_of_mem v hx)) d hd

/-- Non-negativity of every drawdown entry is equivalent to the series
rising from the seed: i.e. to the chain `m ≤ v0 ≤ v1 ≤ ...`. -/
theorem drawdownFrom_nonneg_iff : ∀ (l : List ℚ) (m : ℚ), 0 < m →
    (∀ v ∈ l, 0 < v) →
    ((∀ d ∈ List.zipWith (fun v mm => v / mm - 1) l (runningMaxFrom m l), 0 ≤ d) ↔
      List.Chain (· ≤ ·) m l) := by
  intro l
  induction l with
  | nil =>
    intro m hm hpos
    exact iff_of_true (by intro d hd; cases hd) List.Chain.nil
  | cons v vs ih =>
    intro m hm hpos
    have hv : 0 < v := hpos v (List.mem_cons_self v vs)
    have hmv : 0 < max m v := lt_of_lt_of_le hm (le_max_left m v)
    have hpos' : ∀ x ∈ vs, 0 < x := fun x hx => hpos x (List.mem_cons_of_mem v hx)
    simp only [runningMaxFrom, List.zipWith_cons_cons, List.forall_mem_cons,
      List.chain_cons]
    constructor
    · rintro ⟨h1, htail⟩
      have hle : m ≤ v := by
        have h2 : 1 ≤ v / max m v := by linarith
        rw [le_div_iff₀ hmv, one_mul] at h2
        have := max_le_iff.mp h2
        exact this.1
      have hmax : max m v = v := max_eq_right hle
      rw [hmax] at htail
      exact ⟨hle, (ih v hv hpos').mp htail⟩
    · rintro ⟨hle, hchain⟩
      have hmax : max m v = v := max_eq_right hle
      refine ⟨?_, ?_⟩
      · rw [hmax, div_self (ne_of_gt hv)]
        norm_num
      · rw [hmax]
        exact (ih v hv hpos').mpr hchain

/-! ### Claims C5 and C9 -/

/-- Claim C5, counterexample: for the value series `[100, 50, 100, 40]` the
trough is at position 3 and the prefix maximum 100 recurs at positions 0
and 2.  The spec says the drawdown start is the LAST date at or before the
trough where the value equals its all-time high (position 2), but
`idxmax` returns the FIRST position attaining the prefix maximum
(position 0), so the code's start date differs from the claimed one. -/
theorem claim_C5_counterexample :
    mddStart lPeakTwice = 0 ∧ specMddStart lPeakTwice = 2 ∧
    mddStart lPeakTwice ≠ specMddStart lPeakTwice := by
  refine ⟨?_, ?_, ?_⟩ <;>
    norm_num [mddStart, specMddStart, mddEnd, max_drawdown, drawdown,
      runningMax, runningMaxFrom, listMin, listMax, lPeakTwice, List.indexOf,
      List.findIdx, List.findIdx.go, List.range, List.range.loop, List.filter,
      beq_eq_decide, Bool.cond_eq_ite, List.getLastD]

/-- Claim C5 (amended): for every non-empty cleaned value series the
reported maximum drawdown is the minimum over all positions of
`value / running_max - 1`; its end is the FIRST position attaining that
minimum; and its start is the FIRST position at or before the trough
attaining the maximum value over that prefix (not the last position at the
all-time high, as the spec words it).  Positions index the date-labelled
series in date order. -/
theorem claim_C5_amended (l : List ℚ) (hne : l ≠ []) :
    mddEnd l < l.length ∧
    (drawdown l).getD (mddEnd l) 0 = max_drawdown l ∧
    (∀ i, i < l.length → max_drawdown l ≤ (drawdown l).getD i 0) ∧
    (∀ j, j < mddEnd l → max_drawdown l < (drawdown l).getD j 0) ∧
    mddStart l ≤ mddEnd l ∧
    l.getD (mddStart l) 0 = listMax (l.take (mddEnd l + 1)) ∧
    (∀ j, j < mddStart l → l.getD j 0 < listMax (l.take (mddEnd l + 1))) := by
  have hdd : drawdown l ≠ [] := drawdown_ne_nil hne
  have hmem : listMin (drawdown l) ∈ drawdown l := listMin_mem hdd
  have hidx : (drawdown l).indexOf (listMin (drawdown l)) < (drawdown l).length :=
    List.indexOf_lt_length.mpr hmem
  have he : mddEnd l < l.length := by
    rw [← length_drawdown l]; exact hidx
  have hlpos : 0 < l.length := List.length_pos.mpr hne
  have htake : l.take (mddEnd l + 1) ≠ [] := by
    intro h0
    have := congrArg List.length h0
    rw [List.length_take] at this
    simp only [List.length_nil] at this
    omega
  have hmax_mem : listMax (l.take (mddEnd l + 1)) ∈ l.take (mddEnd l + 1) :=
    listMax_mem htake
  have hsidx : mddStart l < (l.take (mddEnd l + 1)).length :=
    List.indexOf_lt_length.mpr hmax_mem
  have hs_le : mddStart l ≤ mddEnd l := by
    have := hsidx
    rw [List.length_take] at this
    omega
  refine ⟨he, getD_indexOf hmem, ?_, ?_, hs_le, ?_, ?_⟩
  · intro i hi
    apply listMin_le
    have hi' : i < (drawdown l).length := by rw [length_drawdown]; exact hi
    rw [List.getD_eq_getElem _ _ hi']
    exact List.getElem_mem hi'
  · intro j hj
    have hle : max_drawdown l ≤ (drawdown l).getD j 0 := by
      apply listMin_le
      have hj' : j < (drawdown l).length := lt_trans hj hidx
      rw [List.getD_eq_getElem _ _ hj']
      exact List.getElem_mem hj'
    have hne' : (drawdown l).getD j 0 ≠ max_drawdown l := getD_lt_indexOf_ne hj
    exact hle.lt_of_ne (Ne.symm hne')
  · have hs_lt : mddStart l < mddEnd l + 1 := Nat.lt_succ_of_le hs_le
    rw [← getD_take l hs_lt]
    exact getD_indexOf hmax_mem
  · intro j hj
    have hj' : j < (l.take (mddEnd l + 1)).length := lt_trans hj hsidx
    have hne' : (l.take (mddEnd l + 1)).getD j 0 ≠ listMax (l.take (mddEnd l + 1)) :=
      getD_lt_indexOf_ne hj
    have hle : (l.take (mddEnd l + 1)).getD j 0 ≤ listMax (l.take (mddEnd l + 1)) := by
      apply le_listMax
      rw [List.getD_eq_getElem _ _ hj']
      exact List.getElem_mem hj'
    have := hle.lt_of_ne hne'
    rw [getD_take l (by rw [List.length_take] at hj'; omega)] at this
    exact this

/-- Claim C5, witness: the amended characterization applied to the concrete
series `[100, 50, 100, 40]` (trough position 3, prefix maximum 100). -/
theorem claim_C5_witness :
    mddEnd lPeakTwice < lPeakTwice.length ∧
    (drawdown lPeakTwice).getD (mddEnd lPeakTwice) 0 = max_drawdown lPeakTwice ∧
    max_drawdown lPeakTwice ≤ (drawdown lPeakTwice).getD 1 0 ∧
    mddStart lPeakTwice ≤ mddEnd lPeakTwice ∧
    lPeakTwice.getD (mddStart lPeakTwice) 0 =
      listMax (lPeakTwice.take (mddEnd lPeakTwice + 1)) := by
  have h := claim_C5_amended lPeakTwice (by simp [lPeakTwice])
  exact ⟨h.1, h.2.1, h.2.2.1 1 (by norm_num [lPeakTwice]), h.2.2.2.2.1,
    h.2.2.2.2.2.1⟩

/-- Claim C9, counterexample: the claim quantifies over every non-empty
portfolio-value series, but for the negative series `[-10, -20]` — which the
code can produce, since a negative `initial_capital` is never rejected — the
computed maximum drawdown is `0` while the series is strictly decreasing,
refuting "equals 0 iff the series is non-decreasing". -/
theorem claim_C9_counterexample :
    max_drawdown lNeg = 0 ∧ ¬ List.Chain' (· ≤ ·) lNeg := by
  constructor
  · norm_num [max_drawdown, drawdown, runningMax, runningMaxFrom, listMin, lNeg]
  · norm_num [lNeg, List.chain'_cons, List.Chain']

/-- Claim C9 (amended): for every non-empty series of POSITIVE values the
maximum drawdown is at most 0, and it equals 0 exactly when the series is
non-decreasing throughout. -/
theorem claim_C9_amended (l : List ℚ) (hne : l ≠ []) (hpos : ∀ v ∈ l, 0 < v) :
    max_drawdown l ≤ 0 ∧ (max_drawdown l = 0 ↔ List.Chain' (· ≤ ·) l) := by
  cases l with
  | nil => exact absurd rfl hne
  | cons v vs =>
    have hv : 0 < v := hpos v (List.mem_cons_self v vs)
    have hpos' : ∀ x ∈ vs, 0 < x := fun x hx => hpos x (List.mem_cons_of_mem v hx)
    have hdd : drawdown (v :: vs) =
        (v / v - 1) :: List.zipWith (fun x mm => x / mm - 1) vs (runningMaxFrom v vs) := by
      simp [drawdown, runningMax]
    have hhead : v / v - 1 = 0 := by
      rw [div_self (ne_of_gt hv)]; norm_num
    have hnonpos : ∀ d ∈ drawdown (v :: vs), d ≤ 0 := by
      intro d hd
      rw [hdd] at hd
      rcases List.mem_cons.mp hd with h | h
      · rw [h, hhead]
      · exact drawdownFrom_nonpos vs v hv hpos' d h
    have hmin_mem : listMin (drawdown (v :: vs)) ∈ drawdown (v :: vs) :=
      listMin_mem (drawdown_ne_nil (List.cons_ne_nil v vs))
    have hle0 : max_drawdown (v :: vs) ≤ 0 := hnonpos _ hmin_mem
    refine ⟨hle0, ?_⟩
    constructor
    · intro h0
      have hall : ∀ d ∈ drawdown (v :: vs), 0 ≤ d := by
        intro d hd
        have := listMin_le hd
        rw [max_drawdown] at h0
        linarith
      show List.Chain (· ≤ ·) v vs
      apply (drawdownFrom_nonneg_iff vs v hv hpos').mp
      intro d hd
      apply hall
      rw [hdd]
      exact List.mem_cons_of_mem _ hd
    · intro hchain
      have hchain' : List.Chain (· ≤ ·) v vs := hchain
      have htail := (drawdownFrom_nonneg_iff vs v hv hpos').mpr hchain'
      have hall : ∀ d ∈ drawdown (v :: vs), 0 ≤ d := by
        intro d hd
        rw [hdd] at hd
        rcases List.mem_cons.mp hd with h | h
        · rw [h, hhead]
        · exact htail d h
      exact le_antisymm hle0 (hall _ hmin_mem)

/-- Claim C9, witness: the amended claim applied to the positive series
`[2, 1, 3]`, which dips and therefore has a strictly negative drawdown. -/
theorem claim_C9_witness :
    max_drawdown lDip ≤ 0 ∧
    (max_drawdown lDip = 0 ↔ List.Chain' (· ≤ ·) lDip) :=
  claim_C9_amended lDip (by simp [lDip]) (by norm_num [lDip])

/-! ### Claim C8 -/

theorem cast_sum_sq (rs : List ℚ) (m : ℚ) :
    (((rs.map (fun r => (r - m) ^ 2)).sum : ℚ) : ℝ) =
      (rs.map (fun r : ℚ => ((r : ℝ) - (m : ℝ)) ^ 2)).sum := by
  induction rs with
  | nil => simp
  | cons x xs ih =>
    simp only [List.map_cons, List.sum_cons, Rat.cast_add]
    rw [ih]
    congr 1
    push_cast
    ring

/-- Claim C8: the computed annualized volatility and Sharpe ratio coincide,
for every cleaned daily-return series, with the spec's definitions: with
fewer than 2 observations both are 0; otherwise the volatility is the
Bessel-corrected sample standard deviation times `sqrt 252`, and the Sharpe
ratio is `((1 + mean)^252 - 1) / volatility`, defined as 0 when the
volatility vanishes (the code's `> 0` test agrees with the spec's `= 0`
test because the volatility is a product of square roots, hence
nonnegative). -/
theorem claim_C8 (rs : List ℚ) :
    annual_volatility rs = specAnnualVolatility rs ∧
    sharpe_ratio rs = specSharpeRatio rs := by
  have hvol : annual_volatility rs = specAnnualVolatility rs := by
    by_cases h : 1 < rs.length
    · have h2 : ¬ rs.length < 2 := by omega
      have hcast : ((sampleVarianceQ rs : ℚ) : ℝ) =
          ((rs.map (fun r : ℚ => ((r : ℝ) - (listMean rs : ℝ)) ^ 2)).sum) /
            ((rs.length : ℝ) - 1) := by
        rw [sampleVarianceQ, Rat.cast_div, cast_sum_sq]
        congr 1
        push_cast
        ring
      rw [annual_volatility, if_pos h, specAnnualVolatility,
        if_neg h2, specSampleStd, hcast]
    · have h2 : rs.length < 2 := by omega
      rw [annual_volatility, if_neg h, specAnnualVolatility, if_pos h2]
  refine ⟨hvol, ?_⟩
  by_cases h : 1 < rs.length
  · have h2 : ¬ rs.length < 2 := by omega
    rw [sharpe_ratio, specSharpeRatio, if_pos h, if_neg h2, ← hvol]
    have hnn : 0 ≤ annual_volatility rs := by
      rw [annual_volatility, if_pos h]
      exact mul_nonneg (Real.sqrt_nonneg _) (Real.sqrt_nonneg _)
    by_cases hv : 0 < annual_volatility rs
    · rw [if_pos hv, if_neg (ne_of_gt hv)]
    · rw [if_neg hv, if_pos (le_antisymm (not_lt.mp hv) hnn)]
  · have h2 : rs.length < 2 := by omega
    rw [sharpe_ratio, specSharpeRatio, if_neg h, if_pos h2]

end HighStakes
